import Mathlib

/-
Verification development for the camera-path transformation core of
`src/src-tauri/src/main.rs` (rl-camera-path-editor).

Modelling conventions (shallow embedding):
* `f64` values are modelled by `F64`: NaN, +infinity, -infinity, or an exact
  rational.  Float arithmetic is modelled as exact rational arithmetic with the
  IEEE special-value propagation rules; rounding error and signed zero are not
  modelled (zero is treated as +0).  Float literals such as `182.04` and `30.0`
  are modelled by the exact rationals they denote in the source text.
* `i32` values are modelled by `Int`; the release-mode wrap-around of `+=` and
  unary negation is modelled explicitly by `i32wrap`, and the saturating
  `as i32` float-to-integer cast by `f64asI32` (NaN to 0, clamping at the i32
  bounds), which is Rust's defined cast behaviour.
* The transforms are embedded at the post-parse level: a parsed
  `HashMap<String, CameraKeyframe>` is modelled as an association list
  `CameraData` (a parsed map has no duplicate keys; rebuilding a map by
  inserting distinct keys is modelled as building the list in iteration
  order).  The serde_json parse/serialize boundary is outside the model; a
  "parseable keyframe collection" is any well-typed `CameraData` value.
* Rust's stable `slice::sort_by` with the comparator
  `a.partial_cmp(b).unwrap()` is modelled by a stable monadic insertion sort
  `sortM` over an `Option Ordering` comparator; `none` from the comparator
  (the `unwrap` panic on NaN) aborts the whole sort.  A comparison sort of two
  or more elements must invoke its comparator on every element at least once,
  so the panic behaviour agrees with the real sort.
* A call's outcome is `Res`: `panic` (an `unwrap` panic), `error msg`
  (an `Err(msg)` return), or `ok` with the resulting collection.
-/

/-- Model of an IEEE-754 `f64` value: NaN, either infinity, or a finite value
represented exactly as a rational. -/
inductive F64 where
  | nan : F64
  | inf : F64
  | ninf : F64
  | fin : ℚ → F64
deriving DecidableEq

namespace F64

/-- IEEE addition on modelled `f64` values.  The finite case is exact
rational addition, with no rounding to 53-bit precision: a theorem whose
truth depends on the value of a sum therefore either must not care about
rounding or must restrict its inputs to a range on which the real `f64`
addition is also exact. -/
def add : F64 → F64 → F64
  | nan, _ => nan
  | _, nan => nan
  | inf, ninf => nan
  | ninf, inf => nan
  | inf, _ => inf
  | _, inf => inf
  | ninf, _ => ninf
  | _, ninf => ninf
  | fin a, fin b => fin (a + b)

/-- IEEE negation on modelled `f64` values. -/
def neg : F64 → F64
  | nan => nan
  | inf => ninf
  | ninf => inf
  | fin a => fin (-a)

/-- IEEE subtraction, `a - b = a + (-b)`; exact in the finite case, with the
same caveat as `add`. -/
def sub (a b : F64) : F64 := add a (neg b)

/-- IEEE multiplication on modelled `f64` values. -/
def mul : F64 → F64 → F64
  | nan, _ => nan
  | _, nan => nan
  | inf, inf => inf
  | inf, ninf => ninf
  | ninf, inf => ninf
  | ninf, ninf => inf
  | inf, fin b => if 0 < b then inf else if b < 0 then ninf else nan
  | fin a, inf => if 0 < a then inf else if a < 0 then ninf else nan
  | ninf, fin b => if 0 < b then ninf else if b < 0 then inf else nan
  | fin a, ninf => if 0 < a then ninf else if a < 0 then inf else nan
  | fin a, fin b => fin (a * b)

/-- IEEE division on modelled `f64` values (division of a nonzero finite
value by zero gives a signed infinity, `0.0 / 0.0` gives NaN). -/
def div : F64 → F64 → F64
  | nan, _ => nan
  | _, nan => nan
  | inf, inf => nan
  | inf, ninf => nan
  | ninf, inf => nan
  | ninf, ninf => nan
  | inf, fin b => if 0 ≤ b then inf else ninf
  | ninf, fin b => if 0 ≤ b then ninf else inf
  | fin _, inf => fin 0
  | fin _, ninf => fin 0
  | fin a, fin b =>
    if b = 0 then (if a = 0 then nan else if 0 < a then inf else ninf)
    else fin (a / b)

/-- Embeds `f64::partial_cmp`: `none` exactly when an operand is NaN. -/
def pcmp : F64 → F64 → Option Ordering
  | nan, _ => none
  | _, nan => none
  | fin a, fin b => some (if a < b then Ordering.lt else if a = b then Ordering.eq else Ordering.gt)
  | inf, inf => some Ordering.eq
  | ninf, ninf => some Ordering.eq
  | ninf, _ => some Ordering.lt
  | _, ninf => some Ordering.gt
  | inf, _ => some Ordering.gt
  | _, inf => some Ordering.lt

/-- Boolean "less or equal" on non-NaN modelled `f64` values (false whenever
an operand is NaN). -/
def fleB : F64 → F64 → Bool
  | nan, _ => false
  | _, nan => false
  | ninf, _ => true
  | _, ninf => false
  | _, inf => true
  | inf, _ => false
  | fin a, fin b => decide (a ≤ b)

/-- Embeds `f64::min` (NaN-ignoring minimum). -/
def fmin (a b : F64) : F64 :=
  if a = nan then b else if b = nan then a else if fleB a b then a else b

/-- Embeds `f64::max` (NaN-ignoring maximum). -/
def fmax (a b : F64) : F64 :=
  if a = nan then b else if b = nan then a else if fleB a b then b else a

end F64

/-- The exact value of the `f64::MAX` constant. -/
def f64MAXq : ℚ := (2 ^ 53 - 1) * 2 ^ 971

/-- `f64::MAX` as a modelled value. -/
def f64MAX : F64 := F64.fin f64MAXq

/-- `f64::MIN` as a modelled value. -/
def f64MIN : F64 := F64.fin (-f64MAXq)

/-- Computable ceiling of a rational (`Rat.floor` by reflection); equal to
the mathematical ceiling. -/
def ratCeil (q : ℚ) : ℤ := -(Rat.floor (-q))

/-- Embeds `f64::round`: round half away from zero. -/
def rustRound (q : ℚ) : ℤ := if 0 ≤ q then Rat.floor (q + 1 / 2) else ratCeil (q - 1 / 2)

/-- Truncation toward zero of a rational to an integer (the rounding used by
Rust's float-to-integer `as` casts). -/
def ratTrunc (q : ℚ) : ℤ := if 0 ≤ q then Rat.floor q else ratCeil q

/-- The value of `i32::MAX`. -/
def i32max : ℤ := 2147483647

/-- The value of `i32::MIN`. -/
def i32min : ℤ := -2147483648

/-- Embeds Rust's `as i32` cast applied to an `f64`: truncation toward zero,
saturating at the `i32` bounds, with NaN mapped to 0. -/
def f64asI32 : F64 → ℤ
  | F64.nan => 0
  | F64.inf => i32max
  | F64.ninf => i32min
  | F64.fin q => max i32min (min i32max (ratTrunc q))

/-- Wrap-around of an integer into the `i32` range, modelling release-mode
two's-complement overflow of `i32` addition and negation. -/
def i32wrap (n : ℤ) : ℤ := (n + 2 ^ 31) % 2 ^ 32 - 2 ^ 31

/-- Rounding applied to a modelled `f64` (`f64::round`); NaN and the
infinities round to themselves. -/
def fround : F64 → F64
  | F64.fin q => F64.fin ((rustRound q : ℤ) : ℚ)
  | x => x

/-- The `(keyframe.timestamp * 30.0).round() as i32` conversion shared by
`transform_speed`, `transform_time_offset` and `reverse_path` (the 30 fps
frame synchronization). -/
def frameFor (t : F64) : ℤ := f64asI32 (fround (F64.mul t (F64.fin 30)))

/-- The `(v as f64 * 182.04) as i32` degree-to-engine-unit conversion used by
`transform_rotation_offset` when `use_degrees` is set. -/
def degToUU (d : ℤ) : ℤ := f64asI32 (F64.mul (F64.fin (d : ℚ)) (F64.fin (18204 / 100)))

/-- The `Position` struct of the source (three `f64` coordinates). -/
structure Position where
  x : F64
  y : F64
  z : F64
deriving DecidableEq

/-- The `Rotation` struct of the source (three `i32` engine-unit angles). -/
structure Rotation where
  pitch : ℤ
  roll : ℤ
  yaw : ℤ
deriving DecidableEq

/-- The `CameraKeyframe` struct of the source. -/
structure CameraKeyframe where
  fov : F64
  frame : ℤ
  position : Position
  rotation : Rotation
  timestamp : F64
  weight : F64
deriving DecidableEq

/-- The parsed `CameraData = HashMap<String, CameraKeyframe>`, modelled as an
association list (a parsed JSON object has no duplicate keys). -/
abbrev CameraData := List (String × CameraKeyframe)

/-- Outcome of one transform call: an `unwrap` panic, an `Err(msg)` return, or
success. -/
inductive Res (α : Type) where
  | panic : Res α
  | error : String → Res α
  | ok : α → Res α
deriving DecidableEq

/-- The statistics object produced by `get_path_stats`. -/
structure PathStats where
  keyframes : ℕ
  duration : F64
  min_time : F64
  max_time : F64
deriving DecidableEq

/-- The keys of a collection, in iteration order. -/
def keysOf (c : CameraData) : List String := c.map Prod.fst

/-- Insertion step of the stable monadic sort: place `x` before the first
element not strictly smaller than it; a `none` comparison (the `unwrap` panic)
aborts. -/
def insertM {α : Type} (cmp : α → α → Option Ordering) (x : α) : List α → Option (List α)
  | [] => some [x]
  | y :: ys =>
    match cmp x y with
    | none => none
    | some Ordering.gt => (insertM cmp x ys).map (fun r => y :: r)
    | some _ => some (x :: y :: ys)

/-- Stable sort with a fallible comparator, modelling `slice::sort_by` with
`a.partial_cmp(b).unwrap()`: any `none` comparison aborts the whole sort. -/
def sortM {α : Type} (cmp : α → α → Option Ordering) : List α → Option (List α)
  | [] => some []
  | x :: xs => (sortM cmp xs).bind (insertM cmp x)

/-- `transform_fov_add`: `keyframe.fov += add_value` for every keyframe. -/
def transform_fov_add (c : CameraData) (add_value : F64) : Res CameraData :=
  Res.ok (c.map (fun kv => (kv.1, { kv.2 with fov := F64.add kv.2.fov add_value })))

/-- `transform_fov_multiply`: `keyframe.fov *= multiplier` for every keyframe. -/
def transform_fov_multiply (c : CameraData) (multiplier : F64) : Res CameraData :=
  Res.ok (c.map (fun kv => (kv.1, { kv.2 with fov := F64.mul kv.2.fov multiplier })))

/-- `transform_fov_set`: `keyframe.fov = fov_value` for every keyframe. -/
def transform_fov_set (c : CameraData) (fov_value : F64) : Res CameraData :=
  Res.ok (c.map (fun kv => (kv.1, { kv.2 with fov := fov_value })))

/-- `transform_position_offset`: componentwise position addition. -/
def transform_position_offset (c : CameraData) (x y z : F64) : Res CameraData :=
  Res.ok (c.map (fun kv =>
    (kv.1, { kv.2 with position :=
      { x := F64.add kv.2.position.x x
        y := F64.add kv.2.position.y y
        z := F64.add kv.2.position.z z } })))

/-- `transform_position_scale`: componentwise position multiplication. -/
def transform_position_scale (c : CameraData) (x y z : F64) : Res CameraData :=
  Res.ok (c.map (fun kv =>
    (kv.1, { kv.2 with position :=
      { x := F64.mul kv.2.position.x x
        y := F64.mul kv.2.position.y y
        z := F64.mul kv.2.position.z z } })))

/-- `transform_rotation_offset`: compute the offset triple once (converting
via `degToUU` when `use_degrees`), then add it to every keyframe's rotation
with `i32` (wrapping) addition. -/
def transform_rotation_offset (c : CameraData) (pitch yaw roll : ℤ)
    (use_degrees : Bool) : Res CameraData :=
  let p := if use_degrees then degToUU pitch else pitch
  let y := if use_degrees then degToUU yaw else yaw
  let r := if use_degrees then degToUU roll else roll
  Res.ok (c.map (fun kv =>
    (kv.1, { kv.2 with rotation :=
      { pitch := i32wrap (kv.2.rotation.pitch + p)
        roll := i32wrap (kv.2.rotation.roll + r)
        yaw := i32wrap (kv.2.rotation.yaw + y) } })))

/-- The bounds pass of `transform_mirror` when `bounded`: fold `f64::min` and
`f64::max` componentwise over all positions, starting from `f64::MAX` and
`f64::MIN`. -/
def mirrorBounds (c : CameraData) : Position × Position :=
  c.foldl
    (fun acc kv =>
      ({ x := F64.fmin acc.1.x kv.2.position.x
         y := F64.fmin acc.1.y kv.2.position.y
         z := F64.fmin acc.1.z kv.2.position.z },
       { x := F64.fmax acc.2.x kv.2.position.x
         y := F64.fmax acc.2.y kv.2.position.y
         z := F64.fmax acc.2.z kv.2.position.z }))
    ({ x := f64MAX, y := f64MAX, z := f64MAX },
     { x := f64MIN, y := f64MIN, z := f64MIN })

/-- One coordinate of the mirror: reflect about the midpoint of the bounds
(`2.0 * center - old`) when `bounded`, else negate. -/
def mirrorCoord (bounded : Bool) (lo hi old : F64) : F64 :=
  if bounded then
    F64.sub (F64.mul (F64.fin 2) (F64.div (F64.add lo hi) (F64.fin 2))) old
  else
    F64.neg old

/-- The three `if flip_… { rotation.… = -rotation.… }` statements of the
mirror loop body. -/
def applyFlips (flip_pitch flip_yaw flip_roll : Bool) (kf : CameraKeyframe) : CameraKeyframe :=
  let r1 := if flip_pitch then { kf.rotation with pitch := i32wrap (-kf.rotation.pitch) } else kf.rotation
  let r2 := if flip_yaw then { r1 with yaw := i32wrap (-r1.yaw) } else r1
  let r3 := if flip_roll then { r2 with roll := i32wrap (-r2.roll) } else r2
  { kf with rotation := r3 }

/-- The per-keyframe loop of `transform_mirror`.  The `match axis` sits inside
the loop body, so an invalid axis produces `Err` only when the loop body runs
at least once (faithful to the source's early `return Err`). -/
def mirrorLoop (axis : String) (bounded : Bool) (min_pos max_pos : Position)
    (flip_pitch flip_yaw flip_roll : Bool) : CameraData → Res CameraData
  | [] => Res.ok []
  | (key, kf) :: rest =>
    let stepped : Res CameraKeyframe :=
      if axis = "x" then
        Res.ok { kf with position :=
          { kf.position with x := mirrorCoord bounded min_pos.x max_pos.x kf.position.x } }
      else if axis = "y" then
        Res.ok { kf with position :=
          { kf.position with y := mirrorCoord bounded min_pos.y max_pos.y kf.position.y } }
      else if axis = "z" then
        Res.ok { kf with position :=
          { kf.position with z := mirrorCoord bounded min_pos.z max_pos.z kf.position.z } }
      else
        Res.error ("Invalid axis: " ++ axis)
    match stepped with
    | Res.ok kf1 =>
      match mirrorLoop axis bounded min_pos max_pos flip_pitch flip_yaw flip_roll rest with
      | Res.ok out => Res.ok ((key, applyFlips flip_pitch flip_yaw flip_roll kf1) :: out)
      | Res.error e => Res.error e
      | Res.panic => Res.panic
    | Res.error e => Res.error e
    | Res.panic => Res.panic

/-- `transform_mirror`: compute bounds (when `bounded`), then run the
per-keyframe loop. -/
def transform_mirror (c : CameraData) (axis : String)
    (flip_pitch flip_yaw flip_roll bounded : Bool) : Res CameraData :=
  let bounds :=
    if bounded then mirrorBounds c
    else ({ x := F64.fin 0, y := F64.fin 0, z := F64.fin 0 },
          { x := F64.fin 0, y := F64.fin 0, z := F64.fin 0 })
  mirrorLoop axis bounded bounds.1 bounds.2 flip_pitch flip_yaw flip_roll c

/-- `transform_speed`: `timestamp /= multiplier`, then resynchronize `frame`
at 30 fps. -/
def transform_speed (c : CameraData) (multiplier : F64) : Res CameraData :=
  Res.ok (c.map (fun kv =>
    let ts := F64.div kv.2.timestamp multiplier
    (kv.1, { kv.2 with timestamp := ts, frame := frameFor ts })))

/-- `transform_time_offset`: `timestamp += offset_seconds`, then
resynchronize `frame` at 30 fps. -/
def transform_time_offset (c : CameraData) (offset_seconds : F64) : Res CameraData :=
  Res.ok (c.map (fun kv =>
    let ts := F64.add kv.2.timestamp offset_seconds
    (kv.1, { kv.2 with timestamp := ts, frame := frameFor ts })))

/-- `reverse_path`: sort the timestamps (panicking on a NaN comparison), take
min/max (defaulting to 0 on an empty collection), reassign
`timestamp = max_time - timestamp + min_time`, and resynchronize `frame`. -/
def reverse_path (c : CameraData) : Res CameraData :=
  match sortM F64.pcmp (c.map (fun kv => kv.2.timestamp)) with
  | none => Res.panic
  | some timestamps =>
    let max_time := (timestamps.getLast?).getD (F64.fin 0)
    let min_time := (timestamps.head?).getD (F64.fin 0)
    Res.ok (c.map (fun kv =>
      let ts := F64.add (F64.sub max_time kv.2.timestamp) min_time
      (kv.1, { kv.2 with timestamp := ts, frame := frameFor ts })))

/-- The body of the smoothing loop for sorted index `i`: average position and
fov over the centered window `[i - window_size/2, min (i + window_size/2 + 1) len)`
(integer division; edge windows are shorter, not padded). -/
def smoothWindow (keyframes : List (String × CameraKeyframe)) (window_size : ℕ)
    (i : ℕ) (key : String) (kf : CameraKeyframe) : String × CameraKeyframe :=
  let start := i - window_size / 2
  let stop := min (i + window_size / 2 + 1) keyframes.length
  let window := (keyframes.drop start).take (stop - start)
  let count : F64 := F64.fin ((stop - start : ℕ) : ℚ)
  let sumX := window.foldl (fun s kv => F64.add s kv.2.position.x) (F64.fin 0)
  let sumY := window.foldl (fun s kv => F64.add s kv.2.position.y) (F64.fin 0)
  let sumZ := window.foldl (fun s kv => F64.add s kv.2.position.z) (F64.fin 0)
  let sumFov := window.foldl (fun s kv => F64.add s kv.2.fov) (F64.fin 0)
  (key, { kf with
    position := { x := F64.div sumX count, y := F64.div sumY count, z := F64.div sumZ count }
    fov := F64.div sumFov count })

/-- `smooth_path`: sort the keyframes by timestamp (panicking on a NaN
comparison), then average position and fov over each centered window; each
original key keeps its own rotation, timestamp, frame and weight. -/
def smooth_path (c : CameraData) (window_size : ℕ) : Res CameraData :=
  match sortM (fun a b => F64.pcmp a.2.timestamp b.2.timestamp) c with
  | none => Res.panic
  | some keyframes =>
    Res.ok (keyframes.enum.map (fun p => smoothWindow keyframes window_size p.1 p.2.1 p.2.2))

/-- `get_path_stats`: sort the timestamps (panicking on a NaN comparison) and
report count, duration and min/max time (0 defaults on an empty collection). -/
def get_path_stats (c : CameraData) : Res PathStats :=
  match sortM F64.pcmp (c.map (fun kv => kv.2.timestamp)) with
  | none => Res.panic
  | some timestamps =>
    Res.ok
      { keyframes := c.length
        duration := F64.sub ((timestamps.getLast?).getD (F64.fin 0))
          ((timestamps.head?).getD (F64.fin 0))
        min_time := (timestamps.head?).getD (F64.fin 0)
        max_time := (timestamps.getLast?).getD (F64.fin 0) }

/-- The keyframe "A" of the spec's concrete scenario (section 8). -/
def kfA : CameraKeyframe :=
  { fov := F64.fin 90, frame := 0
    position := { x := F64.fin 0, y := F64.fin 0, z := F64.fin 0 }
    rotation := { pitch := 0, roll := 0, yaw := 0 }
    timestamp := F64.fin 0, weight := F64.fin 1 }

/-- The keyframe "B" of the spec's concrete scenario (section 8). -/
def kfB : CameraKeyframe :=
  { fov := F64.fin 90, frame := 30
    position := { x := F64.fin 10, y := F64.fin 0, z := F64.fin 0 }
    rotation := { pitch := 0, roll := 0, yaw := 0 }
    timestamp := F64.fin 1, weight := F64.fin 1 }

/-- A keyframe with a NaN timestamp (the `CameraKeyframe` type permits it). -/
def kfNaN : CameraKeyframe := { kfA with timestamp := F64.nan }

/-- A keyframe whose `frame` field (7) is out of sync with its timestamp (0). -/
def kfStale : CameraKeyframe := { kfA with frame := 7 }

/-- The spec's two-keyframe sample collection. -/
def sampleC : CameraData := [("A", kfA), ("B", kfB)]

/-- A two-keyframe collection containing a NaN timestamp. -/
def nanC : CameraData := [("A", kfA), ("N", kfNaN)]

/-- A singleton collection whose frame field violates the 30 fps invariant. -/
def staleC : CameraData := [("A", kfStale)]

/-- Sortedness of a timestamp list under the non-NaN `f64` order. -/
def SortedF (l : List F64) : Prop := l.Pairwise (fun a b => F64.fleB a b = true)

/-- The saturating-cast contract for a keyframe's `frame` field relative to
its timestamp: the frame stays inside the `i32` range, NaN gives 0, and an
ideal rounded value beyond either `i32` bound is clamped to that bound. -/
def SaturatedFrame (kf : CameraKeyframe) : Prop :=
  (i32min ≤ kf.frame ∧ kf.frame ≤ i32max) ∧
  (kf.timestamp = F64.nan → kf.frame = 0) ∧
  (kf.timestamp = F64.inf → kf.frame = i32max) ∧
  (kf.timestamp = F64.ninf → kf.frame = i32min) ∧
  ∀ q : ℚ, kf.timestamp = F64.fin q →
    (i32max < rustRound (q * 30) → kf.frame = i32max) ∧
    (rustRound (q * 30) < i32min → kf.frame = i32min)

namespace F64

theorem fleB_fin_iff {a b : ℚ} : fleB (fin a) (fin b) = true ↔ a ≤ b := by
  simp [fleB]

theorem fleB_refl {a : F64} (h : a ≠ nan) : fleB a a = true := by
  cases a <;> simp_all [fleB]

theorem ne_nan_of_fleB {a b : F64} (h : fleB a b = true) : a ≠ nan ∧ b ≠ nan := by
  cases a <;> cases b <;> simp_all [fleB]

theorem fleB_trans {a b c : F64} (h1 : fleB a b = true) (h2 : fleB b c = true) :
    fleB a c = true := by
  cases a <;> cases b <;> cases c <;> simp_all [fleB]
  linarith

theorem fleB_antisymm {a b : F64} (h1 : fleB a b = true) (h2 : fleB b a = true) : a = b := by
  cases a <;> cases b <;> simp_all [fleB]
  linarith

theorem pcmp_self {a : F64} (h : a ≠ nan) : pcmp a a = some Ordering.eq := by
  cases a <;> simp_all [pcmp]

theorem pcmp_isSome {a b : F64} (ha : a ≠ nan) (hb : b ≠ nan) : (pcmp a b).isSome := by
  cases a <;> cases b <;> simp_all [pcmp]

theorem pcmp_nan_left (b : F64) : pcmp nan b = none := by
  cases b <;> rfl

theorem ne_nan_of_pcmp {a b : F64} {o : Ordering} (h : pcmp a b = some o) :
    a ≠ nan ∧ b ≠ nan := by
  cases a <;> cases b <;> simp_all [pcmp]

theorem eq_of_pcmp_eq {a b : F64} (h : pcmp a b = some Ordering.eq) : a = b := by
  cases a <;> cases b <;> simp_all [pcmp]

theorem fleB_of_pcmp_lt {a b : F64} (h : pcmp a b = some Ordering.lt) : fleB a b = true := by
  cases a <;> cases b <;> simp_all [pcmp, fleB]
  linarith

theorem fleB_of_pcmp_gt {a b : F64} (h : pcmp a b = some Ordering.gt) : fleB b a = true := by
  cases a <;> cases b <;> simp_all [pcmp, fleB]

theorem fleB_of_pcmp_ne_gt {a b : F64} {o : Ordering} (h : pcmp a b = some o)
    (hne : o ≠ Ordering.gt) : fleB a b = true := by
  cases o with
  | lt => exact fleB_of_pcmp_lt h
  | eq =>
    obtain ⟨ha, _⟩ := ne_nan_of_pcmp h
    rw [eq_of_pcmp_eq h] at ha ⊢
    exact fleB_refl ha
  | gt => exact absurd rfl hne

end F64

theorem insertM_perm {α : Type} (cmp : α → α → Option Ordering) (x : α) :
    ∀ {l l' : List α}, insertM cmp x l = some l' → List.Perm l' (x :: l) := by
  intro l
  induction l with
  | nil =>
    intro l' h
    simp only [insertM, Option.some.injEq] at h
    rw [← h]
  | cons y ys ih =>
    intro l' h
    simp only [insertM] at h
    cases hc : cmp x y with
    | none => rw [hc] at h; cases h
    | some o =>
      rw [hc] at h
      cases o with
      | gt =>
        simp only [Option.map_eq_some'] at h
        obtain ⟨r, hr, rfl⟩ := h
        exact (List.Perm.cons y (ih hr)).trans (List.Perm.swap x y ys)
      | lt =>
        simp only [Option.some.injEq] at h
        rw [← h]
      | eq =>
        simp only [Option.some.injEq] at h
        rw [← h]

theorem sortM_perm {α : Type} (cmp : α → α → Option Ordering) :
    ∀ {l l' : List α}, sortM cmp l = some l' → List.Perm l' l := by
  intro l
  induction l with
  | nil =>
    intro l' h
    simp only [sortM, Option.some.injEq] at h
    rw [← h]
  | cons x xs ih =>
    intro l' h
    simp only [sortM, Option.bind_eq_some] at h
    obtain ⟨m, hm, hins⟩ := h
    exact (insertM_perm cmp x hins).trans (List.Perm.cons x (ih hm))

theorem insertM_isSome {α : Type} (cmp : α → α → Option Ordering) (x : α) :
    ∀ {l : List α}, (∀ y ∈ l, (cmp x y).isSome) → (insertM cmp x l).isSome := by
  intro l
  induction l with
  | nil => intro _; simp [insertM]
  | cons y ys ih =>
    intro h
    have hy : (cmp x y).isSome := h y (List.mem_cons_self y ys)
    simp only [insertM]
    cases hc : cmp x y with
    | none => rw [hc] at hy; cases hy
    | some o =>
      cases o with
      | gt =>
        have := ih (fun z hz => h z (List.mem_cons_of_mem y hz))
        simpa using this
      | lt => simp
      | eq => simp

theorem sortM_isSome {α : Type} (cmp : α → α → Option Ordering) :
    ∀ {l : List α}, (∀ a ∈ l, ∀ b ∈ l, (cmp a b).isSome) → (sortM cmp l).isSome := by
  intro l
  induction l with
  | nil => intro _; simp [sortM]
  | cons x xs ih =>
    intro h
    have hxs : (sortM cmp xs).isSome :=
      ih (fun a ha b hb => h a (List.mem_cons_of_mem x ha) b (List.mem_cons_of_mem x hb))
    obtain ⟨m, hm⟩ := Option.isSome_iff_exists.mp hxs
    simp only [sortM, hm, Option.bind_some]
    apply insertM_isSome
    intro y hy
    have : y ∈ xs := (sortM_perm cmp hm).mem_iff.mp hy
    exact h x (List.mem_cons_self x xs) y (List.mem_cons_of_mem x this)

theorem insertM_sortedF (x : F64) :
    ∀ {l l' : List F64}, SortedF l → insertM F64.pcmp x l = some l' → SortedF l' := by
  intro l
  induction l with
  | nil =>
    intro l' _ h
    simp only [insertM, Option.some.injEq] at h
    rw [← h]
    exact List.pairwise_singleton _ x
  | cons y ys ih =>
    intro l' hs h
    simp only [insertM] at h
    cases hc : F64.pcmp x y with
    | none => rw [hc] at h; cases h
    | some o =>
      rw [hc] at h
      cases o with
      | gt =>
        simp only [Option.map_eq_some'] at h
        obtain ⟨r, hr, rfl⟩ := h
        have hys : SortedF ys := hs.of_cons
        have hperm := insertM_perm F64.pcmp x hr
        constructor
        · intro z hz
          rcases List.mem_cons.mp (hperm.mem_iff.mp hz) with rfl | hz'
          · exact F64.fleB_of_pcmp_gt hc
          · exact List.rel_of_pairwise_cons hs hz'
        · exact ih hys hr
      | lt =>
        simp only [Option.some.injEq] at h
        rw [← h]
        constructor
        · intro z hz
          rcases List.mem_cons.mp hz with rfl | hz'
          · exact F64.fleB_of_pcmp_lt hc
          · exact F64.fleB_trans (F64.fleB_of_pcmp_lt hc) (List.rel_of_pairwise_cons hs hz')
        · exact hs
      | eq =>
        simp only [Option.some.injEq] at h
        rw [← h]
        have hxy := F64.eq_of_pcmp_eq hc
        have hxley : F64.fleB x y = true := by
          rw [hxy]
          exact F64.fleB_refl (F64.ne_nan_of_pcmp hc).2
        constructor
        · intro z hz
          rcases List.mem_cons.mp hz with rfl | hz'
          · exact hxley
          · exact F64.fleB_trans hxley (List.rel_of_pairwise_cons hs hz')
        · exact hs

theorem sortM_sortedF :
    ∀ {l l' : List F64}, sortM F64.pcmp l = some l' → SortedF l' := by
  intro l
  induction l with
  | nil =>
    intro l' h
    simp only [sortM, Option.some.injEq] at h
    rw [← h]
    exact List.Pairwise.nil
  | cons x xs ih =>
    intro l' h
    simp only [sortM, Option.bind_eq_some] at h
    obtain ⟨m, hm, hins⟩ := h
    exact insertM_sortedF x (ih hm) hins

theorem sortedF_head_le {l : List F64} (hs : SortedF l) (hnn : ∀ x ∈ l, x ≠ F64.nan) :
    ∀ x ∈ l, F64.fleB ((l.head?).getD (F64.fin 0)) x = true := by
  cases l with
  | nil => intro x hx; cases hx
  | cons a t =>
    intro x hx
    rcases List.mem_cons.mp hx with rfl | hx'
    · exact F64.fleB_refl (hnn x (List.mem_cons_self x t))
    · exact List.rel_of_pairwise_cons hs hx'

theorem sortedF_le_last {l : List F64} (hs : SortedF l) (hnn : ∀ x ∈ l, x ≠ F64.nan) :
    ∀ x ∈ l, F64.fleB x ((l.getLast?).getD (F64.fin 0)) = true := by
  induction l with
  | nil => intro x hx; cases hx
  | cons a t ih =>
    intro x hx
    cases t with
    | nil =>
      rcases List.mem_cons.mp hx with rfl | hx'
      · exact F64.fleB_refl (hnn x (List.mem_cons_self x []))
      · cases hx'
    | cons b t' =>
      rw [List.getLast?_cons_cons]
      rcases List.mem_cons.mp hx with rfl | hx'
      · rw [List.getLast?_eq_getLast (b :: t') (by simp)]
        exact List.rel_of_pairwise_cons hs (List.getLast_mem _)
      · exact ih hs.of_cons (fun z hz => hnn z (List.mem_cons_of_mem a hz)) x hx'

theorem ratFloor_eq (q : ℚ) : Rat.floor q = ⌊q⌋ := by
  rw [Rat.floor_def', Rat.floor_def]

theorem ratCeil_eq (q : ℚ) : ratCeil q = ⌈q⌉ := by
  unfold ratCeil
  rw [ratFloor_eq, Int.floor_neg, neg_neg]

theorem ratTrunc_intCast (n : ℤ) : ratTrunc (n : ℚ) = n := by
  unfold ratTrunc
  split_ifs with h
  · rw [ratFloor_eq]; exact Int.floor_intCast n
  · rw [ratCeil_eq]; exact Int.ceil_intCast n

theorem speed_out_frames {c : CameraData} {m : F64} {out : CameraData}
    (h : transform_speed c m = Res.ok out) :
    ∀ kv ∈ out, kv.2.frame = frameFor kv.2.timestamp := by
  simp only [transform_speed, Res.ok.injEq] at h
  subst h
  intro kv hkv
  rcases List.mem_map.mp hkv with ⟨kv0, _, rfl⟩
  rfl

theorem time_offset_out_frames {c : CameraData} {s : F64} {out : CameraData}
    (h : transform_time_offset c s = Res.ok out) :
    ∀ kv ∈ out, kv.2.frame = frameFor kv.2.timestamp := by
  simp only [transform_time_offset, Res.ok.injEq] at h
  subst h
  intro kv hkv
  rcases List.mem_map.mp hkv with ⟨kv0, _, rfl⟩
  rfl

theorem reverse_out_frames {c : CameraData} {out : CameraData}
    (h : reverse_path c = Res.ok out) :
    ∀ kv ∈ out, kv.2.frame = frameFor kv.2.timestamp := by
  unfold reverse_path at h
  cases hsort : sortM F64.pcmp (c.map (fun kv => kv.2.timestamp)) with
  | none => rw [hsort] at h; cases h
  | some ts =>
    rw [hsort] at h
    simp only [Res.ok.injEq] at h
    subst h
    intro kv hkv
    rcases List.mem_map.mp hkv with ⟨kv0, _, rfl⟩
    rfl

theorem clamp_hi {v : ℤ} (h : i32max < v) : max i32min (min i32max v) = i32max := by
  unfold i32max i32min at *
  omega

theorem clamp_lo {v : ℤ} (h : v < i32min) : max i32min (min i32max v) = i32min := by
  unfold i32max i32min at *
  omega

theorem clamp_bounds (v : ℤ) :
    i32min ≤ max i32min (min i32max v) ∧ max i32min (min i32max v) ≤ i32max := by
  unfold i32max i32min
  omega

theorem saturatedFrame_of_frameFor {kf : CameraKeyframe}
    (h : kf.frame = frameFor kf.timestamp) : SaturatedFrame kf := by
  cases hts : kf.timestamp with
  | nan =>
    rw [hts] at h
    refine ⟨?_, fun _ => h, fun hc => absurd (hts.symm.trans hc) (by simp), fun hc =>
      absurd (hts.symm.trans hc) (by simp), fun q hc => absurd (hts.symm.trans hc) (by simp)⟩
    rw [h]
    constructor <;> simp [frameFor, F64.mul, fround, f64asI32, i32min, i32max]
  | inf =>
    rw [hts] at h
    have hval : frameFor F64.inf = i32max := by
      simp [frameFor, F64.mul, fround, f64asI32]
    rw [hval] at h
    refine ⟨?_, fun hc => absurd (hts.symm.trans hc) (by simp), fun _ => h, fun hc =>
      absurd (hts.symm.trans hc) (by simp), fun q hc => absurd (hts.symm.trans hc) (by simp)⟩
    rw [h]
    constructor <;> simp [i32min, i32max]
  | ninf =>
    rw [hts] at h
    have hval : frameFor F64.ninf = i32min := by
      simp [frameFor, F64.mul, fround, f64asI32]
    rw [hval] at h
    refine ⟨?_, fun hc => absurd (hts.symm.trans hc) (by simp), fun hc =>
      absurd (hts.symm.trans hc) (by simp), fun _ => h,
      fun q hc => absurd (hts.symm.trans hc) (by simp)⟩
    rw [h]
    constructor <;> simp [i32min, i32max]
  | fin q =>
    rw [hts] at h
    have hval : frameFor (F64.fin q) = max i32min (min i32max (rustRound (q * 30))) := by
      simp only [frameFor, F64.mul, fround, f64asI32]
      rw [ratTrunc_intCast]
    rw [hval] at h
    refine ⟨?_, fun hc => absurd (hts.symm.trans hc) (by simp), fun hc =>
      absurd (hts.symm.trans hc) (by simp), fun hc => absurd (hts.symm.trans hc) (by simp), ?_⟩
    · rw [h]
      exact clamp_bounds _
    · intro q' hq'
      have hqq : F64.fin q = F64.fin q' := hts.symm.trans hq'
      injection hqq with hqq
      subst hqq
      exact ⟨fun hgt => h.trans (clamp_hi hgt), fun hlt => h.trans (clamp_lo hlt)⟩

theorem ratTrunc_le {q : ℚ} {n : ℤ} (h : q ≤ (n : ℚ)) (hn : 0 ≤ n) : ratTrunc q ≤ n := by
  unfold ratTrunc
  split_ifs with hq
  · rw [ratFloor_eq]
    exact le_trans (Int.floor_le_floor h) (le_of_eq (Int.floor_intCast n))
  · rw [ratCeil_eq]
    have hc : ⌈q⌉ ≤ 0 := by
      have := Int.ceil_le_ceil (le_of_lt (not_le.mp hq))
      simpa using this
    omega

theorem le_ratTrunc {q : ℚ} {n : ℤ} (h : (n : ℚ) ≤ q) (hn : n ≤ 0) : n ≤ ratTrunc q := by
  unfold ratTrunc
  split_ifs with hq
  · rw [ratFloor_eq]
    have hc : 0 ≤ ⌊q⌋ := by
      have := Int.floor_le_floor hq
      simpa using this
    omega
  · rw [ratCeil_eq]
    exact le_trans (le_of_eq (Int.ceil_intCast n).symm) (Int.ceil_le_ceil h)

/-- **C3** (confirmed).  After any successful call to `transform_speed`,
`transform_time_offset`, or `reverse_path`, every keyframe in the output
collection satisfies `frame = frameFor timestamp`, i.e. the code's
`(timestamp * 30.0).round() as i32` conversion of its new timestamp. -/
theorem frame_sync_after_time_transforms :
    (∀ (c : CameraData) (m : F64) (out : CameraData), transform_speed c m = Res.ok out →
      ∀ kv ∈ out, kv.2.frame = frameFor kv.2.timestamp) ∧
    (∀ (c : CameraData) (s : F64) (out : CameraData), transform_time_offset c s = Res.ok out →
      ∀ kv ∈ out, kv.2.frame = frameFor kv.2.timestamp) ∧
    (∀ (c : CameraData) (out : CameraData), reverse_path c = Res.ok out →
      ∀ kv ∈ out, kv.2.frame = frameFor kv.2.timestamp) :=
  ⟨fun _ _ _ h => speed_out_frames h,
   fun _ _ _ h => time_offset_out_frames h,
   fun _ _ h => reverse_out_frames h⟩

unseal Rat.add Rat.mul Rat.inv Rat.sub Rat.ofScientific in
/-- Witness for C3: halving the spec's sample path at speed multiplier 2
makes keyframe B's frame 15, which is exactly `frameFor` of its new
timestamp 1/2. -/
theorem frame_sync_after_time_transforms_witness :
    ({ kfB with timestamp := F64.fin (1 / 2), frame := 15 } : CameraKeyframe).frame =
      frameFor ({ kfB with timestamp := F64.fin (1 / 2), frame := 15 } : CameraKeyframe).timestamp :=
  frame_sync_after_time_transforms.1 sampleC (F64.fin 2)
    [("A", kfA), ("B", { kfB with timestamp := F64.fin (1 / 2), frame := 15 })] (by decide)
    ("B", { kfB with timestamp := F64.fin (1 / 2), frame := 15 }) (by decide)

/-- **C10** (confirmed).  In `transform_speed`, `transform_time_offset` and
`reverse_path`, the rewritten `frame` comes from Rust's saturating
float-to-integer cast: it always lies in the `i32` range, values above
`i32::MAX` clamp to `i32::MAX`, values below `i32::MIN` clamp to `i32::MIN`,
and a NaN timestamp gives frame 0 — no wrap-around. -/
theorem frame_cast_saturates :
    (∀ (c : CameraData) (m : F64) (out : CameraData), transform_speed c m = Res.ok out →
      ∀ kv ∈ out, SaturatedFrame kv.2) ∧
    (∀ (c : CameraData) (s : F64) (out : CameraData), transform_time_offset c s = Res.ok out →
      ∀ kv ∈ out, SaturatedFrame kv.2) ∧
    (∀ (c : CameraData) (out : CameraData), reverse_path c = Res.ok out →
      ∀ kv ∈ out, SaturatedFrame kv.2) :=
  ⟨fun _ _ _ h kv hkv => saturatedFrame_of_frameFor (speed_out_frames h kv hkv),
   fun _ _ _ h kv hkv => saturatedFrame_of_frameFor (time_offset_out_frames h kv hkv),
   fun _ _ h kv hkv => saturatedFrame_of_frameFor (reverse_out_frames h kv hkv)⟩

unseal Rat.add Rat.mul Rat.inv Rat.sub Rat.ofScientific in
/-- Witness for C10: shifting the sample path by 10^9 seconds drives the
ideal frame value far above `i32::MAX`, and the output frame is clamped to
exactly `i32::MAX`. -/
theorem frame_cast_saturates_witness :
    transform_time_offset sampleC (F64.fin 1000000000) =
      Res.ok [("A", { kfA with timestamp := F64.fin 1000000000, frame := i32max }),
              ("B", { kfB with timestamp := F64.fin 1000000001, frame := i32max })] ∧
    ({ kfA with timestamp := F64.fin 1000000000, frame := i32max } : CameraKeyframe).frame =
      i32max := by
  refine ⟨by decide, ?_⟩
  have hs := frame_cast_saturates.2.1 sampleC (F64.fin 1000000000)
    [("A", { kfA with timestamp := F64.fin 1000000000, frame := i32max }),
     ("B", { kfB with timestamp := F64.fin 1000000001, frame := i32max })] (by decide)
    ("A", { kfA with timestamp := F64.fin 1000000000, frame := i32max }) (by decide)
  exact (hs.2.2.2.2 1000000000 rfl).1 (by decide)

unseal Rat.add Rat.mul Rat.inv Rat.sub Rat.ofScientific in
/-- Counterexample to C1 as stated: with multiplier 0 on the spec's sample
collection, `transform_speed` does not fail; it returns a transformed
collection (timestamp 0 becomes NaN with frame 0, timestamp 1 becomes
+infinity with frame `i32::MAX`). -/
theorem transform_speed_zero_counterexample :
    transform_speed sampleC (F64.fin 0) =
      Res.ok [("A", { kfA with timestamp := F64.nan, frame := 0 }),
              ("B", { kfB with timestamp := F64.inf, frame := i32max })] := by
  decide

/-- **C1** (corrected).  `transform_speed` has no zero-multiplier guard: for
every parseable collection, multiplier 0 succeeds, sending each positive
finite timestamp to +infinity, each negative one to -infinity, and each zero
timestamp to NaN. -/
theorem transform_speed_zero_no_guard (c : CameraData) :
    ∃ out, transform_speed c (F64.fin 0) = Res.ok out ∧
      ∀ kv ∈ c, ∃ kf', (kv.1, kf') ∈ out ∧
        ∀ q : ℚ, kv.2.timestamp = F64.fin q →
          (0 < q → kf'.timestamp = F64.inf) ∧
          (q < 0 → kf'.timestamp = F64.ninf) ∧
          (q = 0 → kf'.timestamp = F64.nan) := by
  refine ⟨_, rfl, ?_⟩
  intro kv hkv
  refine ⟨_, List.mem_map_of_mem _ hkv, ?_⟩
  intro q hq
  refine ⟨fun hpos => ?_, fun hneg => ?_, fun hz => ?_⟩
  · show F64.div kv.2.timestamp (F64.fin 0) = F64.inf
    rw [hq]
    simp [F64.div, hpos, ne_of_gt hpos]
  · show F64.div kv.2.timestamp (F64.fin 0) = F64.ninf
    rw [hq]
    simp [F64.div, ne_of_lt hneg, not_lt.mpr (le_of_lt hneg)]
  · show F64.div kv.2.timestamp (F64.fin 0) = F64.nan
    rw [hq]
    simp [F64.div, hz]

/-- Witness for the corrected C1: instantiation at the spec's sample
collection. -/
theorem transform_speed_zero_no_guard_witness :
    ∃ out, transform_speed sampleC (F64.fin 0) = Res.ok out ∧
      ∀ kv ∈ sampleC, ∃ kf', (kv.1, kf') ∈ out ∧
        ∀ q : ℚ, kv.2.timestamp = F64.fin q →
          (0 < q → kf'.timestamp = F64.inf) ∧
          (q < 0 → kf'.timestamp = F64.ninf) ∧
          (q = 0 → kf'.timestamp = F64.nan) :=
  transform_speed_zero_no_guard sampleC

/-- Counterexample to C2 as stated: on the empty (parseable) collection an
invalid axis `"w"` does not fail — the axis check sits inside the
per-keyframe loop, which never runs, so the call returns the (empty)
collection. -/
theorem transform_mirror_invalid_axis_counterexample :
    transform_mirror [] "w" false false false false = Res.ok [] := by
  rfl

/-- **C2** (corrected).  For every NONEMPTY parseable collection, an axis
outside {x, y, z} makes `transform_mirror` fail with the error message
naming the offending value; the empty collection instead succeeds
unchanged. -/
theorem transform_mirror_invalid_axis_errors (c : CameraData) (axis : String)
    (fp fy fr b : Bool) (hne : c ≠ []) (hx : axis ≠ "x") (hy : axis ≠ "y")
    (hz : axis ≠ "z") :
    transform_mirror c axis fp fy fr b = Res.error ("Invalid axis: " ++ axis) := by
  cases c with
  | nil => exact absurd rfl hne
  | cons kv rest =>
    obtain ⟨key, kf⟩ := kv
    simp [transform_mirror, mirrorLoop, hx, hy, hz]

/-- Witness for the corrected C2 at the sample collection with axis "w". -/
theorem transform_mirror_invalid_axis_errors_witness :
    transform_mirror sampleC "w" true true true true = Res.error ("Invalid axis: " ++ "w") :=
  transform_mirror_invalid_axis_errors sampleC "w" true true true true
    (by decide) (by decide) (by decide) (by decide)

unseal Rat.add Rat.mul Rat.inv Rat.sub Rat.ofScientific in
/-- **C7** (confirmed).  With `use_degrees = true`, the rotation offset is
computed once per component as the degree value times 182.04 truncated
toward zero (saturating only outside the realistic i32 range); pitch 1 gives
exactly 182; the same triple is then added (with i32 wrap-around) to every
keyframe's rotation. -/
theorem rotation_offset_degrees (c : CameraData) (pitch yaw roll : ℤ) :
    degToUU 1 = 182 ∧
    (∀ d : ℤ, -10000000 ≤ d → d ≤ 10000000 →
      degToUU d = ratTrunc ((d : ℚ) * (18204 / 100))) ∧
    transform_rotation_offset c pitch yaw roll true =
      Res.ok (c.map (fun kv => (kv.1, { kv.2 with rotation :=
        { pitch := i32wrap (kv.2.rotation.pitch + degToUU pitch)
          roll := i32wrap (kv.2.rotation.roll + degToUU roll)
          yaw := i32wrap (kv.2.rotation.yaw + degToUU yaw) } }))) := by
  refine ⟨by decide, ?_, ?_⟩
  · intro d hd1 hd2
    unfold degToUU
    have hmul : F64.mul (F64.fin (d : ℚ)) (F64.fin (18204 / 100)) =
        F64.fin ((d : ℚ) * (18204 / 100)) := rfl
    rw [hmul]
    show max i32min (min i32max (ratTrunc ((d : ℚ) * (18204 / 100)))) = _
    have hdq1 : ((-10000000 : ℤ) : ℚ) ≤ (d : ℚ) := by exact_mod_cast hd1
    have hdq2 : (d : ℚ) ≤ ((10000000 : ℤ) : ℚ) := by exact_mod_cast hd2
    have hq1 : (d : ℚ) * (18204 / 100) ≤ ((1820400000 : ℤ) : ℚ) := by
      have h := mul_le_mul_of_nonneg_right hdq2 (show (0 : ℚ) ≤ 18204 / 100 by norm_num)
      push_cast at h ⊢
      linarith
    have hq2 : ((-1820400000 : ℤ) : ℚ) ≤ (d : ℚ) * (18204 / 100) := by
      have h := mul_le_mul_of_nonneg_right hdq1 (show (0 : ℚ) ≤ 18204 / 100 by norm_num)
      push_cast at h ⊢
      linarith
    have ht1 := ratTrunc_le hq1 (by norm_num)
    have ht2 := le_ratTrunc hq2 (by norm_num)
    unfold i32min i32max
    omega
  · simp only [transform_rotation_offset, if_pos]

theorem keysOf_map_snd (c : CameraData) (g : String × CameraKeyframe → CameraKeyframe) :
    keysOf (c.map (fun kv => (kv.1, g kv))) = keysOf c := by
  unfold keysOf
  rw [List.map_map]
  rfl

theorem mirrorLoop_keys {axis : String} {bounded : Bool} {mn mx : Position}
    {fp fy fr : Bool} :
    ∀ {c out : CameraData}, mirrorLoop axis bounded mn mx fp fy fr c = Res.ok out →
      keysOf out = keysOf c := by
  intro c
  induction c with
  | nil =>
    intro out h
    simp only [mirrorLoop, Res.ok.injEq] at h
    rw [← h]
  | cons kv rest ih =>
    intro out h
    obtain ⟨key, kf⟩ := kv
    simp only [mirrorLoop] at h
    split at h
    · split at h
      · rename_i out' hrec
        simp only [Res.ok.injEq] at h
        rw [← h]
        unfold keysOf at ih ⊢
        simp only [List.map_cons, List.cons.injEq]
        exact ⟨trivial, ih hrec⟩
      · cases h
      · cases h
    · cases h
    · cases h

/-- **C6** (confirmed).  Every transform in the catalogue that returns
successfully preserves the key multiset (hence, keys being unique, the key
set) of the collection: no keyframe is added or removed. -/
theorem transforms_preserve_keys (c : CameraData) (hN : (keysOf c).Nodup) :
    (∀ v out, transform_fov_add c v = Res.ok out → List.Perm (keysOf out) (keysOf c)) ∧
    (∀ v out, transform_fov_multiply c v = Res.ok out → List.Perm (keysOf out) (keysOf c)) ∧
    (∀ v out, transform_fov_set c v = Res.ok out → List.Perm (keysOf out) (keysOf c)) ∧
    (∀ x y z out, transform_position_offset c x y z = Res.ok out →
      List.Perm (keysOf out) (keysOf c)) ∧
    (∀ x y z out, transform_position_scale c x y z = Res.ok out →
      List.Perm (keysOf out) (keysOf c)) ∧
    (∀ p yw r ud out, transform_rotation_offset c p yw r ud = Res.ok out →
      List.Perm (keysOf out) (keysOf c)) ∧
    (∀ axis fp fy fr b out, transform_mirror c axis fp fy fr b = Res.ok out →
      List.Perm (keysOf out) (keysOf c)) ∧
    (∀ m out, transform_speed c m = Res.ok out → List.Perm (keysOf out) (keysOf c)) ∧
    (∀ s out, transform_time_offset c s = Res.ok out → List.Perm (keysOf out) (keysOf c)) ∧
    (∀ out, reverse_path c = Res.ok out → List.Perm (keysOf out) (keysOf c)) ∧
    (∀ w out, smooth_path c w = Res.ok out → List.Perm (keysOf out) (keysOf c)) := by
  refine ⟨?_, ?_, ?_, ?_, ?_, ?_, ?_, ?_, ?_, ?_, ?_⟩
  · intro v out h
    simp only [transform_fov_add, Res.ok.injEq] at h
    rw [← h, keysOf_map_snd]
  · intro v out h
    simp only [transform_fov_multiply, Res.ok.injEq] at h
    rw [← h, keysOf_map_snd]
  · intro v out h
    simp only [transform_fov_set, Res.ok.injEq] at h
    rw [← h, keysOf_map_snd]
  · intro x y z out h
    simp only [transform_position_offset, Res.ok.injEq] at h
    rw [← h, keysOf_map_snd]
  · intro x y z out h
    simp only [transform_position_scale, Res.ok.injEq] at h
    rw [← h, keysOf_map_snd]
  · intro p yw r ud out h
    simp only [transform_rotation_offset, Res.ok.injEq] at h
    rw [← h, keysOf_map_snd]
  · intro axis fp fy fr b out h
    unfold transform_mirror at h
    rw [mirrorLoop_keys h]
  · intro m out h
    simp only [transform_speed, Res.ok.injEq] at h
    rw [← h, keysOf_map_snd]
  · intro s out h
    simp only [transform_time_offset, Res.ok.injEq] at h
    rw [← h, keysOf_map_snd]
  · intro out h
    unfold reverse_path at h
    cases hsort : sortM F64.pcmp (c.map (fun kv => kv.2.timestamp)) with
    | none => rw [hsort] at h; cases h
    | some ts =>
      rw [hsort] at h
      simp only [Res.ok.injEq] at h
      rw [← h, keysOf_map_snd]
  · intro w out h
    unfold smooth_path at h
    cases hsort : sortM (fun a b => F64.pcmp a.2.timestamp b.2.timestamp) c with
    | none => rw [hsort] at h; cases h
    | some keyframes =>
      rw [hsort] at h
      simp only [Res.ok.injEq] at h
      have hkeys : keysOf out = keysOf keyframes := by
        rw [← h]
        unfold keysOf
        rw [List.map_map]
        have : (Prod.fst ∘ fun p : ℕ × (String × CameraKeyframe) =>
            smoothWindow keyframes w p.1 p.2.1 p.2.2) =
            (Prod.fst ∘ Prod.snd : ℕ × (String × CameraKeyframe) → String) := rfl
        rw [this, ← List.map_map]
        simp
      rw [hkeys]
      exact ((sortM_perm _ hsort).map Prod.fst)

unseal Rat.add Rat.mul Rat.inv Rat.sub Rat.ofScientific in
/-- Witness for C6: the unbounded x-mirror of the sample collection keeps
exactly the keys A and B. -/
theorem transforms_preserve_keys_witness :
    List.Perm (keysOf [("A", kfA),
                       ("B", { kfB with position := { x := F64.fin (-10), y := F64.fin 0, z := F64.fin 0 } })])
      (keysOf sampleC) :=
  (transforms_preserve_keys sampleC (by decide)).2.2.2.2.2.2.1 "x" false false false false
    [("A", kfA),
     ("B", { kfB with position := { x := F64.fin (-10), y := F64.fin 0, z := F64.fin 0 } })]
    (by decide)

unseal Rat.add Rat.mul Rat.inv Rat.sub Rat.ofScientific in
/-- Witness for C7: rotation offset by (1, 2, 3) degrees on the sample
collection adds the truncated triple (182, 364, 546) to both keyframes. -/
theorem rotation_offset_degrees_witness :
    transform_rotation_offset sampleC 1 2 3 true =
      Res.ok [("A", { kfA with rotation := { pitch := 182, roll := 546, yaw := 364 } }),
              ("B", { kfB with rotation := { pitch := 182, roll := 546, yaw := 364 } })] ∧
    degToUU 1 = 182 ∧
    degToUU (-3) = ratTrunc ((-3 : ℚ) * (18204 / 100)) := by
  obtain ⟨h1, h2, h3⟩ := rotation_offset_degrees sampleC 1 2 3
  refine ⟨?_, h1, h2 (-3) (by norm_num) (by norm_num)⟩
  rw [h3]
  decide

theorem F64.add_zero_left (x : F64) : F64.add (F64.fin 0) x = x := by
  cases x <;> simp [F64.add]

theorem F64.div_one (x : F64) : F64.div x (F64.fin 1) = x := by
  cases x <;> simp [F64.div]

theorem keyframe_smooth_eta (kf : CameraKeyframe) :
    ({ kf with
        position := { x := kf.position.x, y := kf.position.y, z := kf.position.z }
        fov := kf.fov } : CameraKeyframe) = kf := by
  obtain ⟨fov, fr, p, r, t, wt⟩ := kf
  obtain ⟨px, py, pz⟩ := p
  rfl

theorem smoothWindow_id {keyframes : List (String × CameraKeyframe)} {w : ℕ}
    (hw2 : w / 2 = 0) {i : ℕ} {kv : String × CameraKeyframe}
    (hget : keyframes[i]? = some kv) :
    smoothWindow keyframes w i kv.1 kv.2 = kv := by
  obtain ⟨hlt, helem⟩ := List.getElem?_eq_some.mp hget
  unfold smoothWindow
  simp only [hw2, Nat.sub_zero, Nat.add_zero]
  have hstop : (i + 1) ⊓ keyframes.length = i + 1 := by omega
  rw [hstop, Nat.add_sub_cancel_left, List.drop_eq_getElem_cons hlt, helem,
    List.take_succ_cons, List.take_zero]
  simp only [List.foldl_cons, List.foldl_nil, F64.add_zero_left, Nat.cast_one, F64.div_one]

/-- **C8** (confirmed).  `smooth_path` with window size 0 or 1 returns (up to
the sort's reordering of the association list, which a key-value map does not
observe) exactly the input collection: every keyframe keeps its original
position and fov (and all other fields). -/
theorem smooth_path_small_window_identity (c : CameraData) (w : ℕ) (out : CameraData)
    (hw : w = 0 ∨ w = 1) (h : smooth_path c w = Res.ok out) : List.Perm out c := by
  unfold smooth_path at h
  cases hsort : sortM (fun a b => F64.pcmp a.2.timestamp b.2.timestamp) c with
  | none => rw [hsort] at h; cases h
  | some keyframes =>
    rw [hsort] at h
    simp only [Res.ok.injEq] at h
    have hw2 : w / 2 = 0 := by rcases hw with rfl | rfl <;> rfl
    have hmap : keyframes.enum.map
        (fun p => smoothWindow keyframes w p.1 p.2.1 p.2.2) = keyframes := by
      have hgen : ∀ p ∈ keyframes.enum,
          smoothWindow keyframes w p.1 p.2.1 p.2.2 = p.2 := by
        intro p hp
        obtain ⟨i, kv⟩ := p
        exact smoothWindow_id hw2 (List.mk_mem_enum_iff_getElem?.mp hp)
      calc keyframes.enum.map (fun p => smoothWindow keyframes w p.1 p.2.1 p.2.2)
          = keyframes.enum.map Prod.snd := List.map_congr_left hgen
        _ = keyframes := by simp
    rw [← h, hmap]
    exact sortM_perm _ hsort

unseal Rat.add Rat.mul Rat.inv Rat.sub Rat.ofScientific in
/-- Witness for C8: smoothing the sample collection with window size 1
permutes (here: equals) the original collection. -/
theorem smooth_path_small_window_identity_witness :
    List.Perm sampleC sampleC :=
  smooth_path_small_window_identity sampleC 1 sampleC (Or.inr rfl) (by decide)

/-- **C9** (confirmed).  With no NaN timestamp the sorts inside
`reverse_path` and `smooth_path` never hit the comparator's `none` branch,
so both calls succeed on every such collection; and on a concrete
two-keyframe collection with one NaN timestamp the `unwrap` panics in both. -/
theorem sort_unwrap_panics :
    (∀ c : CameraData, (∀ kv ∈ c, kv.2.timestamp ≠ F64.nan) →
      (∃ out, reverse_path c = Res.ok out) ∧ ∀ w, ∃ out, smooth_path c w = Res.ok out) ∧
    reverse_path nanC = Res.panic ∧ smooth_path nanC 2 = Res.panic := by
  refine ⟨?_, by decide, by decide⟩
  intro c hnn
  constructor
  · have hsome : (sortM F64.pcmp (c.map (fun kv => kv.2.timestamp))).isSome := by
      apply sortM_isSome
      intro a ha b hb
      rcases List.mem_map.mp ha with ⟨kva, hkva, rfl⟩
      rcases List.mem_map.mp hb with ⟨kvb, hkvb, rfl⟩
      exact F64.pcmp_isSome (hnn kva hkva) (hnn kvb hkvb)
    obtain ⟨ts, hts⟩ := Option.isSome_iff_exists.mp hsome
    refine ⟨?_, ?_⟩
    on_goal 2 => unfold reverse_path; rw [hts]; exact rfl
  · intro w
    have hsome : (sortM (fun a b => F64.pcmp a.2.timestamp b.2.timestamp) c).isSome := by
      apply sortM_isSome
      intro a ha b hb
      exact F64.pcmp_isSome (hnn a ha) (hnn b hb)
    obtain ⟨kfs, hkfs⟩ := Option.isSome_iff_exists.mp hsome
    refine ⟨?_, ?_⟩
    on_goal 2 => unfold smooth_path; rw [hkfs]; exact rfl

/-- Witness for C9: instantiation at the NaN-free sample collection. -/
theorem sort_unwrap_panics_witness :
    ∃ out, reverse_path sampleC = Res.ok out :=
  (sort_unwrap_panics.1 sampleC (by decide)).1

/-- Counterexample to C4 as stated: on a two-keyframe collection with one
NaN timestamp, `get_path_stats` does not return a statistics result — the
sort comparator's `unwrap` panics. -/
theorem get_path_stats_nan_counterexample : get_path_stats nanC = Res.panic := by
  decide

/-- **C4** (corrected).  `get_path_stats` never returns an error and is
read-only, and for every collection whose timestamps are NaN-free it returns
a statistics result (counting every keyframe); but a NaN timestamp alongside
at least one other keyframe makes its internal sort's `unwrap` panic. -/
theorem get_path_stats_no_nan_total (c : CameraData)
    (hnn : ∀ kv ∈ c, kv.2.timestamp ≠ F64.nan) :
    ∃ stats, get_path_stats c = Res.ok stats ∧ stats.keyframes = c.length := by
  have hsome : (sortM F64.pcmp (c.map (fun kv => kv.2.timestamp))).isSome := by
    apply sortM_isSome
    intro a ha b hb
    rcases List.mem_map.mp ha with ⟨kva, hkva, rfl⟩
    rcases List.mem_map.mp hb with ⟨kvb, hkvb, rfl⟩
    exact F64.pcmp_isSome (hnn kva hkva) (hnn kvb hkvb)
  obtain ⟨ts, hts⟩ := Option.isSome_iff_exists.mp hsome
  have hok : get_path_stats c = Res.ok
      { keyframes := c.length
        duration := F64.sub ((ts.getLast?).getD (F64.fin 0)) ((ts.head?).getD (F64.fin 0))
        min_time := (ts.head?).getD (F64.fin 0)
        max_time := (ts.getLast?).getD (F64.fin 0) } := by
    unfold get_path_stats
    rw [hts]
  exact ⟨_, hok, rfl⟩

/-- Witness for the corrected C4: instantiation at the sample collection. -/
theorem get_path_stats_no_nan_total_witness :
    ∃ stats, get_path_stats sampleC = Res.ok stats ∧ stats.keyframes = sampleC.length :=
  get_path_stats_no_nan_total sampleC (by decide)

theorem F64.add_fin_fin (a b : ℚ) : F64.add (F64.fin a) (F64.fin b) = F64.fin (a + b) := rfl

theorem F64.sub_fin_fin (a b : ℚ) : F64.sub (F64.fin a) (F64.fin b) = F64.fin (a - b) := by
  show F64.add (F64.fin a) (F64.neg (F64.fin b)) = F64.fin (a - b)
  simp [F64.neg, F64.add, sub_eq_add_neg]

theorem keyframe_time_eta (kf : CameraKeyframe) :
    ({ kf with timestamp := kf.timestamp, frame := kf.frame } : CameraKeyframe) = kf := by
  obtain ⟨fov, fr, p, r, t, wt⟩ := kf
  rfl

theorem sortM_fin_bounds {T S : List F64} (hsort : sortM F64.pcmp T = some S)
    (hne : T ≠ []) (hfin : ∀ t ∈ T, ∃ q : ℚ, t = F64.fin q) :
    ∃ qm qM : ℚ,
      (S.head?).getD (F64.fin 0) = F64.fin qm ∧
      (S.getLast?).getD (F64.fin 0) = F64.fin qM ∧
      F64.fin qm ∈ T ∧ F64.fin qM ∈ T ∧
      ∀ q : ℚ, F64.fin q ∈ T → qm ≤ q ∧ q ≤ qM := by
  have hperm := sortM_perm _ hsort
  have hsorted := sortM_sortedF hsort
  have hSne : S ≠ [] := by
    intro hS
    subst hS
    exact hne hperm.symm.eq_nil
  have hnn : ∀ x ∈ S, x ≠ F64.nan := by
    intro x hx
    obtain ⟨q, hq⟩ := hfin x (hperm.mem_iff.mp hx)
    rw [hq]
    simp
  obtain ⟨hd, hhd⟩ : ∃ hd, S.head? = some hd := by
    cases S with
    | nil => exact absurd rfl hSne
    | cons a t => exact ⟨a, rfl⟩
  have hlst : S.getLast? = some (S.getLast hSne) := List.getLast?_eq_getLast S hSne
  have hhdmem : hd ∈ S := List.mem_of_mem_head? (by rw [hhd]; rfl)
  have hlstmem : S.getLast hSne ∈ S := List.getLast_mem hSne
  obtain ⟨qm, hqm⟩ := hfin hd (hperm.mem_iff.mp hhdmem)
  obtain ⟨qM, hqM⟩ := hfin (S.getLast hSne) (hperm.mem_iff.mp hlstmem)
  have hheadD : (S.head?).getD (F64.fin 0) = F64.fin qm := by rw [hhd, hqm]; rfl
  have hlastD : (S.getLast?).getD (F64.fin 0) = F64.fin qM := by rw [hlst, hqM]; rfl
  refine ⟨qm, qM, hheadD, hlastD, ?_, ?_, ?_⟩
  · rw [← hqm]
    exact hperm.mem_iff.mp hhdmem
  · rw [← hqM]
    exact hperm.mem_iff.mp hlstmem
  · intro q hq
    have hqS : F64.fin q ∈ S := hperm.mem_iff.mpr hq
    have h1 := sortedF_head_le hsorted hnn (F64.fin q) hqS
    have h2 := sortedF_le_last hsorted hnn (F64.fin q) hqS
    rw [hheadD] at h1
    rw [hlastD] at h2
    exact ⟨F64.fleB_fin_iff.mp h1, F64.fleB_fin_iff.mp h2⟩

theorem reverse_path_fin (c : CameraData)
    (hfin : ∀ kv ∈ c, ∃ q : ℚ, kv.2.timestamp = F64.fin q) (hne : c ≠ []) :
    ∃ qm qM : ℚ,
      F64.fin qm ∈ c.map (fun kv => kv.2.timestamp) ∧
      F64.fin qM ∈ c.map (fun kv => kv.2.timestamp) ∧
      (∀ q : ℚ, F64.fin q ∈ c.map (fun kv => kv.2.timestamp) → qm ≤ q ∧ q ≤ qM) ∧
      reverse_path c = Res.ok (c.map (fun kv =>
        (kv.1, { kv.2 with
          timestamp := F64.add (F64.sub (F64.fin qM) kv.2.timestamp) (F64.fin qm)
          frame := frameFor
            (F64.add (F64.sub (F64.fin qM) kv.2.timestamp) (F64.fin qm)) }))) := by
  have hTfin : ∀ t ∈ c.map (fun kv => kv.2.timestamp), ∃ q : ℚ, t = F64.fin q := by
    intro t ht
    rcases List.mem_map.mp ht with ⟨kv, hkv, rfl⟩
    exact hfin kv hkv
  have hTne : c.map (fun kv => kv.2.timestamp) ≠ [] := by
    simpa using hne
  have hsome : (sortM F64.pcmp (c.map (fun kv => kv.2.timestamp))).isSome := by
    apply sortM_isSome
    intro a ha b hb
    obtain ⟨qa, hqa⟩ := hTfin a ha
    obtain ⟨qb, hqb⟩ := hTfin b hb
    rw [hqa, hqb]
    exact F64.pcmp_isSome (by simp) (by simp)
  obtain ⟨S, hS⟩ := Option.isSome_iff_exists.mp hsome
  obtain ⟨qm, qM, hheadD, hlastD, hmemm, hmemM, hbounds⟩ := sortM_fin_bounds hS hTne hTfin
  refine ⟨qm, qM, hmemm, hmemM, hbounds, ?_⟩
  unfold reverse_path
  rw [hS]
  simp only [hlastD, hheadD]

unseal Rat.add Rat.mul Rat.inv Rat.sub Rat.ofScientific in
/-- Counterexample to C5 as stated: a single keyframe whose `frame` field (7)
is out of sync with its timestamp reverses twice to a collection whose
timestamps match the original but whose frame has been normalized to 0, so
the original frame value is NOT restored. -/
theorem reverse_path_involution_counterexample :
    reverse_path staleC = Res.ok [("A", kfA)] ∧
    reverse_path [("A", kfA)] = Res.ok [("A", kfA)] ∧
    ([("A", kfA)] : CameraData) ≠ staleC := by
  exact ⟨by decide, by decide, by decide⟩

/-- **C5** (corrected).  For every parseable collection whose timestamps all
lie on the dyadic grid `k / 2^20` with `|k| ≤ 2^50` (about ±34 years at
microsecond-scale resolution) and whose frames already satisfy the 30 fps
invariant `frame = frameFor timestamp`, applying `reverse_path` twice
succeeds and restores the collection exactly (timestamps, hence frames).

The grid hypothesis is what makes the exact-rational model faithful here:
each such timestamp is an exact `f64`, and in both passes every intermediate
of `max_time - timestamp + min_time` is a multiple of `2^-20` whose
coefficient stays below `2^53` in magnitude (at most `3 * 2^50` in the first
pass and `2^51` in the second), hence exactly representable, so the
program's `f64` subtraction and addition incur no rounding and coincide with
`F64.sub`/`F64.add`.  Off the grid the real program restores timestamps only
up to `f64` rounding — with timestamps {0, 1, 10^16} the first pass computes
`fl(10^16 - 1) = 10^16`, and the keyframe at 1 comes back at timestamp 0 —
and without the frame precondition each frame is normalized to
`frameFor timestamp` rather than restored (the recorded counterexample). -/
theorem reverse_path_involution (c : CameraData)
    (hgrid : ∀ kv ∈ c, ∃ k : ℤ,
      kv.2.timestamp = F64.fin ((k : ℚ) / 2 ^ 20) ∧ |k| ≤ 2 ^ 50)
    (hframe : ∀ kv ∈ c, kv.2.frame = frameFor kv.2.timestamp) :
    ∃ c₁, reverse_path c = Res.ok c₁ ∧ reverse_path c₁ = Res.ok c := by
  have hfin : ∀ kv ∈ c, ∃ q : ℚ, kv.2.timestamp = F64.fin q := by
    intro kv hkv
    obtain ⟨k, hk, _⟩ := hgrid kv hkv
    exact ⟨_, hk⟩
  by_cases hne : c = []
  · subst hne
    exact ⟨[], rfl, rfl⟩
  · obtain ⟨qm, qM, hmm, hmM, hb, hrev⟩ := reverse_path_fin c hfin hne
    refine ⟨_, hrev, ?_⟩
    have hts_f : ∀ kv ∈ c, ∀ q : ℚ, kv.2.timestamp = F64.fin q →
        F64.add (F64.sub (F64.fin qM) kv.2.timestamp) (F64.fin qm) = F64.fin (qM - q + qm) := by
      intro kv _ q hq
      rw [hq, F64.sub_fin_fin, F64.add_fin_fin]
    have hfin₁ : ∀ kv ∈ c.map (fun kv => (kv.1, { kv.2 with
        timestamp := F64.add (F64.sub (F64.fin qM) kv.2.timestamp) (F64.fin qm)
        frame := frameFor (F64.add (F64.sub (F64.fin qM) kv.2.timestamp) (F64.fin qm)) })),
        ∃ q : ℚ, kv.2.timestamp = F64.fin q := by
      intro kv hkv
      rcases List.mem_map.mp hkv with ⟨kv0, hkv0, rfl⟩
      obtain ⟨q, hq⟩ := hfin kv0 hkv0
      exact ⟨qM - q + qm, hts_f kv0 hkv0 q hq⟩
    have hne₁ : c.map (fun kv => (kv.1, { kv.2 with
        timestamp := F64.add (F64.sub (F64.fin qM) kv.2.timestamp) (F64.fin qm)
        frame := frameFor (F64.add (F64.sub (F64.fin qM) kv.2.timestamp) (F64.fin qm)) })) ≠ [] := by
      simpa using hne
    obtain ⟨qm₁, qM₁, hmm₁, hmM₁, hb₁, hrev₁⟩ := reverse_path_fin _ hfin₁ hne₁
    have hT₁ : ∀ q' : ℚ, F64.fin q' ∈ (c.map (fun kv => (kv.1, { kv.2 with
          timestamp := F64.add (F64.sub (F64.fin qM) kv.2.timestamp) (F64.fin qm)
          frame := frameFor (F64.add (F64.sub (F64.fin qM) kv.2.timestamp) (F64.fin qm)) }))).map
          (fun kv => kv.2.timestamp) →
        ∃ q : ℚ, F64.fin q ∈ c.map (fun kv => kv.2.timestamp) ∧ q' = qM - q + qm := by
      intro q' hq'
      rcases List.mem_map.mp hq' with ⟨kv1, hkv1, hts1⟩
      rcases List.mem_map.mp hkv1 with ⟨kv0, hkv0, rfl⟩
      obtain ⟨q, hq⟩ := hfin kv0 hkv0
      have heq := hts_f kv0 hkv0 q hq
      refine ⟨q, ?_, ?_⟩
      · rw [← hq]
        exact List.mem_map_of_mem _ hkv0
      · have : F64.fin (qM - q + qm) = F64.fin q' := by
          rw [← heq]
          exact hts1
        injection this with h
        exact h.symm
    have hmem_to_T₁ : ∀ q : ℚ, F64.fin q ∈ c.map (fun kv => kv.2.timestamp) →
        F64.fin (qM - q + qm) ∈ (c.map (fun kv => (kv.1, { kv.2 with
          timestamp := F64.add (F64.sub (F64.fin qM) kv.2.timestamp) (F64.fin qm)
          frame := frameFor (F64.add (F64.sub (F64.fin qM) kv.2.timestamp) (F64.fin qm)) }))).map
          (fun kv => kv.2.timestamp) := by
      intro q hq
      rcases List.mem_map.mp hq with ⟨kv0, hkv0, hts0⟩
      refine List.mem_map.mpr ⟨_, List.mem_map_of_mem _ hkv0, ?_⟩
      exact hts_f kv0 hkv0 q hts0
    have hMeq : qM₁ = qM := by
      have hMle : qM₁ ≤ qM := by
        obtain ⟨q, hqmem, hqeq⟩ := hT₁ qM₁ hmM₁
        have h1 := (hb q hqmem).1
        rw [hqeq]
        linarith
      have hMge : qM ≤ qM₁ := by
        have hin := hmem_to_T₁ qm hmm
        rw [show qM - qm + qm = qM by ring] at hin
        exact (hb₁ qM hin).2
      exact le_antisymm hMle hMge
    have hmeq : qm₁ = qm := by
      have hmge : qm ≤ qm₁ := by
        obtain ⟨q, hqmem, hqeq⟩ := hT₁ qm₁ hmm₁
        have h1 := (hb q hqmem).2
        rw [hqeq]
        linarith
      have hmle : qm₁ ≤ qm := by
        have hin := hmem_to_T₁ qM hmM
        rw [show qM - qM + qm = qm by ring] at hin
        exact (hb₁ qm hin).1
      exact le_antisymm hmle hmge
    rw [hMeq, hmeq] at hrev₁
    rw [hrev₁, List.map_map]
    congr 1
    have hid : ∀ kv ∈ c,
        ((fun kv => (kv.1, { kv.2 with
            timestamp := F64.add (F64.sub (F64.fin qM) kv.2.timestamp) (F64.fin qm)
            frame := frameFor (F64.add (F64.sub (F64.fin qM) kv.2.timestamp) (F64.fin qm)) })) ∘
          (fun kv => (kv.1, { kv.2 with
            timestamp := F64.add (F64.sub (F64.fin qM) kv.2.timestamp) (F64.fin qm)
            frame := frameFor (F64.add (F64.sub (F64.fin qM) kv.2.timestamp) (F64.fin qm)) }))) kv
          = kv := by
      intro kv hkv
      obtain ⟨q, hq⟩ := hfin kv hkv
      simp only [Function.comp_apply]
      rw [hq]
      simp only [F64.sub_fin_fin, F64.add_fin_fin]
      rw [show qM - (qM - q + qm) + qm = q by ring, ← hq, ← hframe kv hkv,
        keyframe_time_eta]
    calc c.map _ = c.map id := List.map_congr_left hid
      _ = c := List.map_id c

unseal Rat.add Rat.mul Rat.inv Rat.sub Rat.ofScientific in
/-- Witness for the corrected C5: the sample collection (timestamps 0 and 1,
both on the dyadic grid, frames in sync) is restored exactly by a double
reverse. -/
theorem reverse_path_involution_witness :
    ∃ c₁, reverse_path sampleC = Res.ok c₁ ∧ reverse_path c₁ = Res.ok sampleC :=
  reverse_path_involution sampleC
    (by
      intro kv hkv
      rcases (show kv = ("A", kfA) ∨ kv = ("B", kfB) by simpa [sampleC] using hkv) with rfl | rfl
      · exact ⟨0, by norm_num [kfA], by norm_num⟩
      · exact ⟨2 ^ 20, by norm_num [kfB], by norm_num⟩)
    (by decide)
